import Mathlib

/-!
Verification development for the layer-repacking core of an OCI image tool
(umoci).  The definitions below are a shallow embedding of:

* `oci/layer/generate.go` — `GenerateLayer`, `GenerateLayers`,
  `GenerateInsertLayer`, the `inodeDeltas` sort and the `writeCounter`
  based layer splitter;
* `mutate/compress.go` — the `noopCompressor` and its `withClose` wrapper;
* `cmd/umoci/repack.go` — the masked-path computation of the repack driver.

The tar-generator proper (`tar.go`: `AddFile`, `AddWhiteout`,
`AddOpaqueWhiteout`, the hardlink table) and the filesystem walk
(`pkg/unpriv.Walk`) are not part of the sources at hand; the definitions
embedding them are marked `Modelled from the spec:` and follow the
specification text (§3 whiteout naming, §4.3 operations, header rules).

Modelling conventions:
* The rootfs under the `path` argument is a finite listing
  `FS = List (String × FileInfo)`; `lstat` is association lookup, and a
  missing path models a failed `Lstat`.
* Byte streams are measured in bytes (`Nat`); a tar entry occupies a
  512-byte header block plus its body padded to a multiple of 512
  (PAX extension blocks are not modelled — no claim involves them).  The
  write counter accounts an entry's padding eagerly.
* The pipe/goroutine plumbing is made explicit: the producer result
  records the sealed sub-layer streams, the final stream, whether the
  final tar writer close ran, the generator operations that were invoked,
  and the error (if any) the pipe was closed with.  A possible failure of
  the final `tw.Close()` (a broken pipe) is injected through the
  `twCloseErr` parameter.
* Go strings compare bytewise; Lean strings compare by code point, which
  agrees on the ASCII paths used throughout.
-/

set_option maxRecDepth 10000

namespace Umoci

/-! ### Filesystem data model -/

/-- The type of a filesystem object, as reported by `Lstat`. -/
inductive FileType where
  | Reg
  | Dir
  | Symlink
  | Char
  | Block
  | Fifo
  | Socket
deriving DecidableEq, Repr

/-- The information about one inode that the generator consumes: the Go
`os.FileInfo` together with the `stat_t` fields (`rdev` split into its
major/minor parts, `nlink`, `dev`, `ino`) and the symlink target that
`readlink` would return. -/
structure FileInfo where
  ftype : FileType
  size : Nat
  rdevMajor : Nat := 0
  rdevMinor : Nat := 0
  nlink : Nat := 1
  dev : Nat := 0
  ino : Nat := 0
  linkTarget : String := ""
deriving DecidableEq, Repr

/-- A rootfs, as a finite listing of slash-separated relative paths. -/
abbrev FS := List (String × FileInfo)

/-- `fsEval.Lstat` relative to the rootfs: association-list lookup.
`none` models a failed `Lstat` call. -/
def lstat (fs : FS) (p : String) : Option FileInfo :=
  (fs.find? (fun e => e.1 == p)).map (fun e => e.2)

/-! ### Deltas (`mtree.InodeDelta`) -/

/-- The kind of an mtree inode delta. -/
inductive DeltaKind where
  | Modified
  | Extra
  | Missing
  | Same
deriving DecidableEq, Repr

/-- One mtree inode delta: the path (relative, slash-separated) and its
kind.  The prior keyword snapshot carried by `Modified`/`Extra` deltas is
not consumed by the generator and is omitted. -/
structure InodeDelta where
  path : String
  kind : DeltaKind
deriving DecidableEq, Repr

/-- Lexicographic order on character lists, mirroring Go's bytewise `<`
on strings (identical on the ASCII paths that occur here). -/
def lexLtChars : List Char → List Char → Bool
  | [], [] => false
  | [], _ :: _ => true
  | _ :: _, [] => false
  | a :: as, b :: bs =>
    if a.toNat < b.toNat then true
    else if b.toNat < a.toNat then false
    else lexLtChars as bs

/-- Go's `<` on strings: bytewise lexicographic comparison. -/
def goStrLt (a b : String) : Bool := lexLtChars a.data b.data

/-- Insert `x` into `l`, placing it before the first element on which
`lt x _` holds.  Equal keys keep their arrival order. -/
def insertOrd {α : Type} (lt : α → α → Bool) (x : α) : List α → List α
  | [] => [x]
  | y :: ys => if lt x y then x :: y :: ys else y :: insertOrd lt x ys

/-- Insertion sort (stable).  It models `sort.Sort` as used by
`GenerateLayers`: Go's `sort.Sort` runs plain insertion sort on the small
slices exercised here, and delta-set paths are unique by the mtree
invariant, so the ordering of equal keys never differs from Go's. -/
def sortOrd {α : Type} (lt : α → α → Bool) (l : List α) : List α :=
  l.foldl (fun acc x => insertOrd lt x acc) []

/-- `sort.Sort(inodeDeltas(deltas))`: sort the delta set by path
(`Less i j = ids[i].Path() < ids[j].Path()`). -/
def sortDeltas (ds : List InodeDelta) : List InodeDelta :=
  sortOrd (fun a b => goStrLt a.path b.path) ds

/-! ### Path helpers (`filepath.Split` / `path.Join`) -/

/-- The characters after the last slash. -/
def baseChars (cs : List Char) : List Char :=
  (cs.reverse.takeWhile (fun c => c ≠ '/')).reverse

/-- The characters up to and including the last slash. -/
def dirChars (cs : List Char) : List Char :=
  cs.take (cs.length - (baseChars cs).length)

/-- `filepath.Split`: directory (with its trailing slash) and basename. -/
def splitPath (p : String) : String × String :=
  (String.mk (dirChars p.data), String.mk (baseChars p.data))

/-- Drop trailing slashes, for joining. -/
def dropTrailingSlashes (cs : List Char) : List Char :=
  (cs.reverse.dropWhile (fun c => c = '/')).reverse

/-- `path.Join` on the clean inputs that arise here: empty components
disappear and exactly one slash separates the two parts. -/
def joinPath (a b : String) : String :=
  if a = "" then b
  else if b = "" then a
  else String.mk (dropTrailingSlashes a.data) ++ "/" ++ b

/-! ### Tar entries -/

/-- Tar header typeflags emitted by the generator. -/
inductive EntryType where
  | Reg
  | Dir
  | Symlink
  | Char
  | Block
  | Fifo
  | Link
deriving DecidableEq, Repr

/-- One emitted tar entry: header name, typeflag, body size (zero for
everything but regular files, header rule 5) and linkname (symlink target
or hardlink peer). -/
structure TarEntry where
  name : String
  etype : EntryType
  size : Nat
  linkname : String := ""
deriving DecidableEq, Repr

/-- Modelled from the spec: OCI whiteout naming (§3) — an empty regular
file whose basename is `.wh.` plus the original basename, in the same
directory (`tar.go` computes `filepath.Join(dir, whPrefix+file)` from
`filepath.Split`). -/
def whiteoutNameOf (p : String) : String :=
  joinPath (splitPath p).1 (".wh." ++ (splitPath p).2)

/-- Modelled from the spec: the whiteout entry `AddWhiteout` emits — an
empty regular file at `whiteoutNameOf`. -/
def whiteoutEntryFor (p : String) : TarEntry :=
  { name := whiteoutNameOf p, etype := .Reg, size := 0 }

/-- Modelled from the spec: the opaque whiteout entry `AddOpaqueWhiteout`
emits — an empty regular file at `tar_path + "/.wh..wh..opq"` (§4.3). -/
def opaqueWhiteoutEntryFor (p : String) : TarEntry :=
  { name := joinPath p ".wh..wh..opq", etype := .Reg, size := 0 }

/-- Round up to a whole number of 512-byte tar blocks. -/
def padTo512 (n : Nat) : Nat := ((n + 511) / 512) * 512

/-- Decimal digit count of a number. -/
def numDigits (n : Nat) : Nat := (Nat.toDigits 10 n).length

/-- Modelled from the spec (PAX-extended USTAR, §4.3 rule 7): one
extended-header payload record `"<length> <keyword>=<value>\n"`, whose
`<length>` field counts the whole record, its own digits included. -/
def paxRecordLen (keywordLen valueLen : Nat) : Nat :=
  keywordLen + valueLen + 3
    + numDigits (keywordLen + valueLen + 3 + numDigits (keywordLen + valueLen + 3))

/-- Modelled from the spec (§4.3 rule 7): the PAX payload records needed
when the name (`path`), linkname (`linkpath`) or size exceeds the
historic USTAR limits (100-character name/linkname fields, `8^11 - 1`
size; the USTAR prefix-splitting fallback is not modelled, which can
only overcount).  Zero when the plain USTAR header suffices. -/
def paxPayloadLen (e : TarEntry) : Nat :=
  (if 100 < e.name.length then paxRecordLen 4 e.name.length else 0)
    + (if 100 < e.linkname.length then paxRecordLen 8 e.linkname.length else 0)
    + (if 8 ^ 11 ≤ e.size then paxRecordLen 4 (numDigits e.size) else 0)

/-- Modelled from the spec (§4.3 rules 6–7, §6 tar dialect): the header
bytes of one entry — the 512-byte USTAR block, preceded, when PAX records
are needed, by the 512-byte extended-header block and its payload padded
to a 512-byte boundary. -/
def headerBytesOf (e : TarEntry) : Nat :=
  512 + (if paxPayloadLen e = 0 then 0 else 512 + padTo512 (paxPayloadLen e))

/-- Modelled from the spec: bytes one entry occupies on the stream — its
header bytes (USTAR block plus any PAX blocks) plus the body padded to
512. -/
def entryBytes (e : TarEntry) : Nat := headerBytesOf e + padTo512 e.size

/-- Total bytes of a list of entries. -/
def entriesBytes (es : List TarEntry) : Nat := (es.map entryBytes).sum

/-- The tar typeflag byte of each entry type (`'0'`–`'6'`). -/
def typeflagByte : EntryType → Nat
  | .Reg => 48
  | .Link => 49
  | .Symlink => 50
  | .Char => 51
  | .Block => 52
  | .Dir => 53
  | .Fifo => 54

/-- Modelled from the spec: a schematic rendering of the 512-byte header
block (name bytes, typeflag, size), zero-padded to 512 bytes.  Only its
length and the fact that a closed empty stream is all zeros are relied
upon. -/
def headerBytes (e : TarEntry) : List Nat :=
  ((e.name.data.map Char.toNat ++ typeflagByte e.etype :: [e.size]).take 512)
    ++ List.replicate (512 - ((e.name.data.map Char.toNat
        ++ typeflagByte e.etype :: [e.size]).take 512).length) 0

/-- Modelled from the spec: the bytes of one entry — any PAX blocks
(schematic zeros), the USTAR header block, and the body padded with zeros
to a 512-byte boundary. -/
def renderEntry (e : TarEntry) : List Nat :=
  List.replicate (headerBytesOf e - 512) 0 ++ headerBytes e
    ++ List.replicate (padTo512 e.size) 0

/-! ### The tar generator (`tar.go`, modelled from the spec §4.3) -/

/-- ID mapping triple of `MapOptions` (container start, host start,
length). -/
structure IDMapping where
  containerID : Nat
  hostID : Nat
  size : Nat
deriving DecidableEq, Repr

/-- `MapOptions`: uid/gid mappings, rootless mode, and overlayfs whiteout
translation. -/
structure MapOptions where
  uidMappings : List IDMapping := []
  gidMappings : List IDMapping := []
  rootless : Bool := false
  translateOverlayWhiteouts : Bool := false
deriving DecidableEq, Repr

/-- The hardlink table of one `tarGenerator`: first archived path, keyed
by `(dev, inode)`. -/
abbrev InodeTable := List ((Nat × Nat) × String)

/-- Modelled from the spec: `tar.go`'s `AddFile` (§4.3) — serializes one
filesystem object.  Regular files with `nlink > 1` whose `(dev, inode)`
is already in the table become `Link` entries; directories, symlinks,
devices and FIFOs emit a header and no body; sockets are skipped; a
character device at `(0, 0)` is rewritten as an OCI whiteout when
`translate_overlay_whiteouts` is set.  Returns the updated hardlink table
and the entries written. -/
def addFile (opt : MapOptions) (tab : InodeTable) (name : String)
    (fi : FileInfo) : InodeTable × List TarEntry :=
  match fi.ftype with
  | .Reg =>
    if 1 < fi.nlink then
      match (tab.find? (fun e => e.1 == (fi.dev, fi.ino))).map (fun e => e.2) with
      | some first => (tab, [{ name := name, etype := .Link, size := 0, linkname := first }])
      | none =>
        (((fi.dev, fi.ino), name) :: tab, [{ name := name, etype := .Reg, size := fi.size }])
    else (tab, [{ name := name, etype := .Reg, size := fi.size }])
  | .Dir => (tab, [{ name := name, etype := .Dir, size := 0 }])
  | .Symlink => (tab, [{ name := name, etype := .Symlink, size := 0, linkname := fi.linkTarget }])
  | .Char =>
    if opt.translateOverlayWhiteouts && fi.rdevMajor == 0 && fi.rdevMinor == 0 then
      (tab, [whiteoutEntryFor name])
    else (tab, [{ name := name, etype := .Char, size := 0 }])
  | .Block => (tab, [{ name := name, etype := .Block, size := 0 }])
  | .Fifo => (tab, [{ name := name, etype := .Fifo, size := 0 }])
  | .Socket => (tab, [])

/-! ### Errors and the pipe -/

/-- Underlying (unwrapped) errors of the producer: a failed `Lstat`, or a
failed write to the byte sink (broken pipe) at close time. -/
inductive GErr where
  | lstatErr (path : String)
  | sinkErr
deriving DecidableEq, Repr

/-- An error wrapped by `errors.Wrap`: the context strings, outermost
first, around the base error. -/
structure Wrapped where
  contexts : List String
  base : GErr
deriving DecidableEq, Repr

/-- `errors.Wrap(e, msg)`. -/
def wrapMsg (msg : String) (e : Wrapped) : Wrapped :=
  { contexts := msg :: e.contexts, base := e.base }

/-! ### `GenerateLayers` (`oci/layer/generate.go`) -/

/-- The generator operations `GenerateLayers` invokes on the
`tarGenerator` (the dispatch on the delta kind). -/
inductive GenOp where
  | addFileOp (name : String)
  | addWhiteoutOp (name : String)
deriving DecidableEq, Repr

/-- The producer's running state: the sealed sub-layer streams (their
entries; each sealed stream also carries the 1024-byte end-of-archive
marker its `tw.Close()` wrote), the entries of the current stream, the
`writeCounter` for the current stream, the current `tarGenerator`'s
hardlink table, and the operations invoked so far. -/
structure GenState where
  sealed : List (List TarEntry)
  cur : List TarEntry
  counter : Nat
  inodes : InodeTable
  ops : List GenOp
deriving DecidableEq, Repr

/-- The producer's state right after `newTarGenerator`. -/
def initState : GenState :=
  { sealed := [], cur := [], counter := 0, inodes := [], ops := [] }

/-- Seal the current layer: `tg.tw.Close()` (writes the end marker into
the stream being sealed), `writer.Close()`, a fresh pipe,
`counter.written = 0`, and a fresh `tarGenerator` (fresh hardlink
table). -/
def sealLayer (st : GenState) : GenState :=
  { st with sealed := st.sealed ++ [st.cur], cur := [], counter := 0, inodes := [] }

/-- All entries a producer state has written so far, in output order. -/
def allEntries (st : GenState) : List TarEntry := st.sealed.flatten ++ st.cur

/-- One iteration of the delta loop of `GenerateLayers`: dispatch on the
delta kind; for `Modified`/`Extra`, `Lstat` then the split check
`counter.written + fi.Size() + 1000 > maxLayerBytes` then `AddFile`; for
`Missing`, the split check `counter.written + 1000 > maxLayerBytes` then
`AddWhiteout`; `Same` falls through the switch. -/
def processDelta (fs : FS) (opt : MapOptions) (maxLayerBytes : Nat)
    (st : GenState) (d : InodeDelta) : Except Wrapped GenState :=
  match d.kind with
  | .Modified | .Extra =>
    match lstat fs d.path with
    | none => .error { contexts := ["add file lstat"], base := .lstatErr d.path }
    | some fi =>
      let st1 := if 0 < maxLayerBytes ∧ maxLayerBytes < st.counter + fi.size + 1000 then
        sealLayer st else st
      let r := addFile opt st1.inodes d.path fi
      .ok { st1 with
        cur := st1.cur ++ r.2, counter := st1.counter + entriesBytes r.2,
        inodes := r.1, ops := st1.ops ++ [.addFileOp d.path] }
  | .Missing =>
    let st1 := if 0 < maxLayerBytes ∧ maxLayerBytes < st.counter + 1000 then
      sealLayer st else st
    .ok { st1 with
      cur := st1.cur ++ [whiteoutEntryFor d.path],
      counter := st1.counter + entryBytes (whiteoutEntryFor d.path),
      ops := st1.ops ++ [.addWhiteoutOp d.path] }
  | .Same => .ok st

/-- The delta loop: on the first failing delta the producer returns the
wrapped error (the deferred `CloseWithError` then reports it); otherwise
it processes every delta. -/
def genLoop (fs : FS) (opt : MapOptions) (maxLayerBytes : Nat) :
    List InodeDelta → GenState → GenState × Option Wrapped
  | [], st => (st, none)
  | d :: ds, st =>
    match processDelta fs opt maxLayerBytes st d with
    | .ok st' => genLoop fs opt maxLayerBytes ds st'
    | .error e => (st, some e)

/-- What the producer goroutine of `GenerateLayers` leaves behind: the
sealed sub-layer streams, the entries and closed-flag of the final
stream, the operations invoked, and the error the loop or the final
`tw.Close()` produced (if any). -/
structure GenResult where
  sealed : List (List TarEntry)
  last : List TarEntry
  lastClosed : Bool
  ops : List GenOp
  err : Option Wrapped
deriving DecidableEq, Repr

/-- `GenerateLayers(path, deltas, opt, maxLayerBytes)`: sort the deltas
by path, run the delta loop, and close the tar writer (wrapping a close
failure as `"close tar writer"`).  `twCloseErr` injects a failure of that
final close; `fs` is the rootfs under `path`. -/
def generateLayers (fs : FS) (twCloseErr : Option GErr)
    (deltas : List InodeDelta) (opt : MapOptions) (maxLayerBytes : Nat) :
    GenResult :=
  match genLoop fs opt maxLayerBytes (sortDeltas deltas) initState with
  | (st, some e) =>
    { sealed := st.sealed, last := st.cur, lastClosed := false, ops := st.ops, err := some e }
  | (st, none) =>
    match twCloseErr with
    | some ce =>
      { sealed := st.sealed, last := st.cur, lastClosed := false, ops := st.ops,
        err := some { contexts := ["close tar writer"], base := ce } }
    | none =>
      { sealed := st.sealed, last := st.cur, lastClosed := true, ops := st.ops, err := none }

/-- The byte streams published on the channel, in order: every sealed
sub-layer (always closed) followed by the final stream with its
closed-flag. -/
def layerStreams (r : GenResult) : List (List TarEntry × Bool) :=
  r.sealed.map (fun l => (l, true)) ++ [(r.last, r.lastClosed)]

/-- Uncompressed size of a stream: its entries plus the 1024-byte
end-of-archive marker when the tar writer was closed. -/
def streamSize (s : List TarEntry × Bool) : Nat :=
  entriesBytes s.1 + (if s.2 then 1024 else 0)

/-- Modelled from the spec: the bytes of a stream — the rendered entries,
then the two 512-byte zero blocks of the close. -/
def renderStream (s : List TarEntry × Bool) : List Nat :=
  (s.1.map renderEntry).flatten ++ (if s.2 then List.replicate 1024 0 else [])

/-- All entries the producer emitted, in output order across the streams. -/
def outputEntries (r : GenResult) : List TarEntry := r.sealed.flatten ++ r.last

/-- The deferred `writer.CloseWithError(errors.Wrap(Err, "generate
layer"))`: `errors.Wrap(nil, ...)` is `nil`, so a successful run closes
the pipe cleanly. -/
def pipeCloseError (r : GenResult) : Option Wrapped :=
  r.err.map (wrapMsg "generate layer")

/-- `GenerateLayer(path, deltas, opt)`: `GenerateLayers` with
`maxLayerBytes = 0`, returning the first stream received on the
channel. -/
def generateLayer (fs : FS) (twCloseErr : Option GErr)
    (deltas : List InodeDelta) (opt : MapOptions) : List TarEntry × Bool :=
  (layerStreams (generateLayers fs twCloseErr deltas opt 0)).headD ([], false)

/-! ### `GenerateInsertLayer` -/

/-- Modelled from the spec: the visit order of `unpriv.Walk` — parents
before children, siblings in sorted order; on slash-separated relative
paths, sorting the listing by path realizes this order. -/
def sortByPath (fs : FS) : FS :=
  sortOrd (fun a b => goStrLt a.1 b.1) fs

/-- The walk body of `GenerateInsertLayer`: for each visited path, add it
at `path.Join(target, curPath[len(root):])`, threading the hardlink
table. -/
def walkEntries (opt : MapOptions) (target : String) :
    List (String × FileInfo) → InodeTable → List TarEntry
  | [], _ => []
  | (rel, fi) :: rest, tab =>
    (addFile opt tab (joinPath target rel) fi).2
      ++ walkEntries opt target rest (addFile opt tab (joinPath target rel) fi).1

/-- `GenerateInsertLayer(root, target, opaque, opt)`: optionally an opaque
whiteout at `target`; then, if `root` is empty, a whiteout at `target`,
otherwise the walk of `root` (given as the relative listing `fs`, the
empty string naming `root` itself). -/
def generateInsertLayer (root : String) (fs : FS) (target : String)
    (opq : Bool) (opt : MapOptions) : List TarEntry :=
  (if opq then [opaqueWhiteoutEntryFor target] else [])
    ++ (if root = "" then [whiteoutEntryFor target]
        else walkEntries opt target (sortByPath fs) [])

/-! ### The compressor (`mutate/compress.go`) -/

/-- The `withClose` wrapper: `Read` delegates to the inner reader and
`Close` is a no-op returning `nil`. -/
structure withClose where
  r : List Nat
deriving DecidableEq, Repr

/-- Reading the wrapped reader to the end yields the inner bytes. -/
def withClose.ReadAll (wc : withClose) : List Nat := wc.r

/-- `withClose.Close` returns `nil`. -/
def withClose.CloseResult (_wc : withClose) : Option GErr := none

/-- `noopCompressor`: holds the caller-specified media type. -/
structure noopCompressor where
  mediaType : String
deriving DecidableEq, Repr

/-- `NewNoopCompressor(mediaType)`. -/
def NewNoopCompressor (mediaType : String) : noopCompressor :=
  { mediaType := mediaType }

/-- `noopCompressor.Compress`: wraps the reader in `withClose`. -/
def noopCompressor.Compress (_nc : noopCompressor) (r : List Nat) : withClose :=
  { r := r }

/-- `noopCompressor.MediaType`. -/
def noopCompressor.MediaType (nc : noopCompressor) : String := nc.mediaType

/-! ### The repack driver (`cmd/umoci/repack.go`) -/

/-- The masked-path computation of `repack`: start from the `--mask-path`
flag values; unless `--no-mask-volumes` is set, append every key of the
image config's `Config.Volumes`. -/
def repackMaskedPaths (maskPathFlag : List String)
    (configVolumes : List String) (noMaskVolumes : Bool) : List String :=
  if noMaskVolumes then maskPathFlag
  else maskPathFlag ++ configVolumes

/-! ### Derived measures used by the size claims -/

/-- The body size the splitter's prediction uses for one delta: the
`Lstat` size for `Modified`/`Extra`, zero otherwise. -/
def deltaFileSize (fs : FS) (d : InodeDelta) : Nat :=
  match d.kind with
  | .Modified | .Extra =>
    match lstat fs d.path with
    | some fi => fi.size
    | none => 0
  | .Missing => 0
  | .Same => 0

/-- The largest single file size occurring in a delta set. -/
def maxSingleFileSize (fs : FS) (ds : List InodeDelta) : Nat :=
  (ds.map (deltaFileSize fs)).foldr Nat.max 0

/-- The byte cost the splitter predicts for one delta before adding it:
body size plus the 1000-byte header slack (`Same` deltas are never
added). -/
def deltaCost (fs : FS) (d : InodeDelta) : Nat :=
  match d.kind with
  | .Modified | .Extra => deltaFileSize fs d + 1000
  | .Missing => 1000
  | .Same => 0

/-! ### Concrete inputs and claim-text variants used by the claims -/

/-- The generator operations the delta dispatch invokes for one delta. -/
def opsOfDelta (d : InodeDelta) : List GenOp :=
  match d.kind with
  | .Modified | .Extra => [.addFileOp d.path]
  | .Missing => [.addWhiteoutOp d.path]
  | .Same => []

/-- Rootfs of the C1 counterexample: one regular file `d/a`. -/
def whiteoutOrderCexFS : FS := [("d/a", { ftype := .Reg, size := 5 })]

/-- Delta set of the C1 counterexample: an `Extra` at `d/a` and a
`Missing` at `d/b`, two paths in the same parent directory `d`. -/
def whiteoutOrderCexDeltas : List InodeDelta :=
  [⟨"d/a", .Extra⟩, ⟨"d/b", .Missing⟩]

/-- Rootfs of the C1 amended scenario: one regular file `d/x`. -/
def whiteoutOrderFS : FS := [("d/x", { ftype := .Reg, size := 5 })]

/-- Delta set of the C1 amended scenario: replacement of `d/x`
(`Missing` then `Extra` at the same path, in that input order). -/
def whiteoutOrderDeltas : List InodeDelta :=
  [⟨"d/x", .Missing⟩, ⟨"d/x", .Extra⟩]

/-- Rootfs of the C3 counterexample: one empty regular file `a`. -/
def sizeBoundCexFS : FS := [("a", { ftype := .Reg, size := 0 })]

/-- Delta set of the C3 counterexample: a single `Extra` at `a`. -/
def sizeBoundCexDeltas : List InodeDelta := [⟨"a", .Extra⟩]

/-- A 600-character path (forces PAX records for the name). -/
def longPathA : String := String.mk (List.replicate 600 'a')

/-- Another 600-character path. -/
def longPathB : String := String.mk (List.replicate 600 'b')

/-- Rootfs of the C3 PAX counterexample: two empty regular files with
600-character names, each occupying 2048 stream bytes (512-byte PAX
header, 1024-byte padded PAX payload, 512-byte USTAR header). -/
def paxBoundCexFS : FS :=
  [(longPathA, { ftype := .Reg, size := 0 }), (longPathB, { ftype := .Reg, size := 0 })]

/-- Delta set of the C3 PAX counterexample: both long-named files added. -/
def paxBoundCexDeltas : List InodeDelta :=
  [⟨longPathA, .Extra⟩, ⟨longPathB, .Extra⟩]

/-- Follows the claim's words, for comparison with `processDelta`: a
splitter that predicts each entry's byte cost as `file_size + 1024`
(`HEADER_SLACK = 1024`) instead of the code's `file_size + 1000`. -/
def processDeltaSlack1024 (fs : FS) (opt : MapOptions) (maxLayerBytes : Nat)
    (st : GenState) (d : InodeDelta) : Except Wrapped GenState :=
  match d.kind with
  | .Modified | .Extra =>
    match lstat fs d.path with
    | none => .error { contexts := ["add file lstat"], base := .lstatErr d.path }
    | some fi =>
      let st1 := if 0 < maxLayerBytes ∧ maxLayerBytes < st.counter + fi.size + 1024 then
        sealLayer st else st
      let r := addFile opt st1.inodes d.path fi
      .ok { st1 with
        cur := st1.cur ++ r.2, counter := st1.counter + entriesBytes r.2,
        inodes := r.1, ops := st1.ops ++ [.addFileOp d.path] }
  | .Missing =>
    let st1 := if 0 < maxLayerBytes ∧ maxLayerBytes < st.counter + 1024 then
      sealLayer st else st
    .ok { st1 with
      cur := st1.cur ++ [whiteoutEntryFor d.path],
      counter := st1.counter + entryBytes (whiteoutEntryFor d.path),
      ops := st1.ops ++ [.addWhiteoutOp d.path] }
  | .Same => .ok st

/-- The delta loop over the claim's 1024-slack splitter. -/
def genLoopSlack1024 (fs : FS) (opt : MapOptions) (maxLayerBytes : Nat) :
    List InodeDelta → GenState → GenState × Option Wrapped
  | [], st => (st, none)
  | d :: ds, st =>
    match processDeltaSlack1024 fs opt maxLayerBytes st d with
    | .ok st' => genLoopSlack1024 fs opt maxLayerBytes ds st'
    | .error e => (st, some e)

/-- `GenerateLayers` as the claim describes it, with `HEADER_SLACK = 1024`. -/
def generateLayersSlack1024 (fs : FS) (twCloseErr : Option GErr)
    (deltas : List InodeDelta) (opt : MapOptions) (maxLayerBytes : Nat) :
    GenResult :=
  match genLoopSlack1024 fs opt maxLayerBytes (sortDeltas deltas) initState with
  | (st, some e) =>
    { sealed := st.sealed, last := st.cur, lastClosed := false, ops := st.ops, err := some e }
  | (st, none) =>
    match twCloseErr with
    | some ce =>
      { sealed := st.sealed, last := st.cur, lastClosed := false, ops := st.ops,
        err := some { contexts := ["close tar writer"], base := ce } }
    | none =>
      { sealed := st.sealed, last := st.cur, lastClosed := true, ops := st.ops, err := none }

/-- Rootfs of the C4 counterexample: one empty regular file `a`. -/
def headerSlackCexFS : FS := [("a", { ftype := .Reg, size := 0 })]

/-- Delta set of the C4 counterexample: a single `Extra` at `a`. -/
def headerSlackCexDeltas : List InodeDelta := [⟨"a", .Extra⟩]

/-- The state one `Extra` empty-file step reaches from `initState` at
`max_layer_bytes = 1` (a split: the empty first layer is sealed). -/
def headerSlackWitnessState : GenState :=
  { sealed := [[]], cur := [{ name := "a", etype := .Reg, size := 0, linkname := "" }],
    counter := 512, inodes := [], ops := [.addFileOp "a"] }

/-- Rootfs of the C5 witness: one regular file `a`. -/
def dispatchWitnessFS : FS := [("a", { ftype := .Reg, size := 3 })]

/-- Delta set of the C5 witness: one of each kind on distinct paths. -/
def dispatchWitnessDeltas : List InodeDelta :=
  [⟨"a", .Extra⟩, ⟨"b", .Missing⟩, ⟨"c", .Same⟩]

end Umoci

/-! ## Helper lemmas -/

namespace Umoci

theorem insertOrd_perm {α : Type} (lt : α → α → Bool) (x : α) (l : List α) :
    (insertOrd lt x l).Perm (x :: l) := by
  induction l with
  | nil => simp [insertOrd]
  | cons y ys ih =>
    simp only [insertOrd]
    split
    · exact List.Perm.refl _
    · exact (ih.cons y).trans (List.Perm.swap x y ys)

theorem foldl_insertOrd_perm {α : Type} (lt : α → α → Bool) :
    ∀ (l acc : List α),
      (l.foldl (fun acc x => insertOrd lt x acc) acc).Perm (l ++ acc)
  | [], acc => by simp
  | x :: xs, acc => by
    simp only [List.foldl_cons]
    refine (foldl_insertOrd_perm lt xs (insertOrd lt x acc)).trans ?_
    refine (List.Perm.append_left xs (insertOrd_perm lt x acc)).trans ?_
    exact List.perm_middle

/-- Sorting is a permutation. -/
theorem sortOrd_perm {α : Type} (lt : α → α → Bool) (l : List α) :
    (sortOrd lt l).Perm l := by
  unfold sortOrd
  have h := foldl_insertOrd_perm lt l []
  rwa [List.append_nil] at h

theorem sortDeltas_perm (ds : List InodeDelta) : (sortDeltas ds).Perm ds :=
  sortOrd_perm _ ds

theorem sortByPath_perm (fs : FS) : (sortByPath fs).Perm fs :=
  sortOrd_perm _ fs

theorem padTo512_le (n : Nat) : padTo512 n ≤ n + 511 :=
  Nat.div_mul_le_self (n + 511) 512

theorem entriesBytes_nil : entriesBytes [] = 0 := rfl

theorem entriesBytes_append (a b : List TarEntry) :
    entriesBytes (a ++ b) = entriesBytes a + entriesBytes b := by
  simp [entriesBytes]

theorem entriesBytes_singleton (e : TarEntry) : entriesBytes [e] = entryBytes e := by
  simp [entriesBytes]

theorem padTo512_zero : padTo512 0 = 0 := by decide

/-- A whiteout has an empty body, so a header bound bounds its whole
entry. -/
theorem entryBytes_whiteout_le (p : String) (H : Nat)
    (h : headerBytesOf (whiteoutEntryFor p) ≤ H) :
    entryBytes (whiteoutEntryFor p) ≤ H := by
  have h0 : padTo512 (whiteoutEntryFor p).size = 0 := padTo512_zero
  rw [entryBytes, h0]
  omega

/-- One `AddFile` call writes no entry or exactly one, whose body is
empty or exactly the file's body. -/
theorem addFile_shape (opt : MapOptions) (tab : InodeTable) (n : String)
    (fi : FileInfo) :
    (addFile opt tab n fi).2 = [] ∨
      ∃ e, (addFile opt tab n fi).2 = [e] ∧ (e.size = 0 ∨ e.size = fi.size) := by
  obtain ⟨ft, sz, maj, mnr, nl, dv, io, ltg⟩ := fi
  unfold addFile
  cases ft
  case Reg =>
    by_cases h : 1 < nl
    · simp only [if_pos h]
      cases hfind : (tab.find? (fun e => e.1 == (dv, io))).map (fun e => e.2) with
      | some first =>
        refine Or.inr ⟨{ name := n, etype := .Link, size := 0, linkname := first },
          ?_, Or.inl rfl⟩
        simp [hfind]
      | none =>
        refine Or.inr ⟨{ name := n, etype := .Reg, size := sz, linkname := "" },
          ?_, Or.inr rfl⟩
        simp [hfind]
    · exact Or.inr ⟨{ name := n, etype := .Reg, size := sz, linkname := "" },
        by simp [if_neg h], Or.inr rfl⟩
  case Dir => exact Or.inr ⟨_, rfl, Or.inl rfl⟩
  case Symlink => exact Or.inr ⟨_, rfl, Or.inl rfl⟩
  case Char =>
    cases hcond : (opt.translateOverlayWhiteouts && maj == 0 && mnr == 0) with
    | true => exact Or.inr ⟨whiteoutEntryFor n, by simp [hcond], Or.inl rfl⟩
    | false =>
      exact Or.inr ⟨{ name := n, etype := .Char, size := 0, linkname := "" },
        by simp [hcond], Or.inl rfl⟩
  case Block => exact Or.inr ⟨_, rfl, Or.inl rfl⟩
  case Fifo => exact Or.inr ⟨_, rfl, Or.inl rfl⟩
  case Socket => exact Or.inl rfl

/-- The bytes one `AddFile` call writes are bounded by any bound on its
entry's header bytes plus the padded body. -/
theorem addFile_bytes_le (opt : MapOptions) (tab : InodeTable) (n : String)
    (fi : FileInfo) (H : Nat)
    (hH : ∀ e ∈ (addFile opt tab n fi).2, headerBytesOf e ≤ H) :
    entriesBytes (addFile opt tab n fi).2 ≤ H + padTo512 fi.size := by
  rcases addFile_shape opt tab n fi with hnil | ⟨e, heq, hsz⟩
  · rw [hnil]
    simp [entriesBytes]
  · rw [heq]
    rw [heq] at hH
    have hhd := hH e (by simp)
    have hp0 := padTo512_zero
    rw [entriesBytes_singleton, entryBytes]
    rcases hsz with h0 | hfs
    · rw [h0]
      omega
    · rw [hfs]
      omega

end Umoci

namespace Umoci

/-- A `Same` delta falls through the switch. -/
theorem processDelta_same_eq (fs : FS) (opt : MapOptions) (maxB : Nat)
    (st : GenState) (p : String) :
    processDelta fs opt maxB st ⟨p, .Same⟩ = .ok st := rfl

/-- A loop over `Same` deltas does nothing. -/
theorem genLoop_all_same (fs : FS) (opt : MapOptions) (maxB : Nat) :
    ∀ (ds : List InodeDelta) (st : GenState), (∀ d ∈ ds, d.kind = .Same) →
      genLoop fs opt maxB ds st = (st, none)
  | [], st, _ => rfl
  | d :: ds, st, h => by
    obtain ⟨p, k⟩ := d
    have hk : k = .Same := h ⟨p, k⟩ (List.mem_cons_self _ _)
    subst hk
    simp only [genLoop, processDelta_same_eq]
    exact genLoop_all_same fs opt maxB ds st (fun d hd => h d (List.mem_cons_of_mem _ hd))

/-- If every `Modified`/`Extra` delta's `Lstat` succeeds, the loop runs to
completion and invokes exactly the operations of the dispatch, in delta
order. -/
theorem genLoop_ops_ok (fs : FS) (opt : MapOptions) (maxB : Nat) :
    ∀ (ds : List InodeDelta) (st : GenState),
      (∀ d ∈ ds, (d.kind = .Modified ∨ d.kind = .Extra) → (lstat fs d.path).isSome = true) →
      (genLoop fs opt maxB ds st).2 = none ∧
        (genLoop fs opt maxB ds st).1.ops = st.ops ++ ds.flatMap opsOfDelta
  | [], st, _ => by simp [genLoop]
  | d :: ds, st, h => by
    obtain ⟨p, k⟩ := d
    have htail : ∀ d ∈ ds, (d.kind = .Modified ∨ d.kind = .Extra) →
        (lstat fs d.path).isSome = true :=
      fun d hd => h d (List.mem_cons_of_mem _ hd)
    cases k
    case Same =>
      simp only [genLoop, processDelta_same_eq]
      have ih := genLoop_ops_ok fs opt maxB ds st htail
      simp only [ih.1, ih.2, List.flatMap_cons, opsOfDelta, true_and]
      simp
    case Missing =>
      simp only [genLoop, processDelta]
      have ih := genLoop_ops_ok fs opt maxB ds
        { (if 0 < maxB ∧ maxB < st.counter + 1000 then sealLayer st else st) with
          cur := (if 0 < maxB ∧ maxB < st.counter + 1000 then sealLayer st else st).cur
            ++ [whiteoutEntryFor p],
          counter := (if 0 < maxB ∧ maxB < st.counter + 1000 then sealLayer st else st).counter
            + entryBytes (whiteoutEntryFor p),
          ops := (if 0 < maxB ∧ maxB < st.counter + 1000 then sealLayer st else st).ops
            ++ [.addWhiteoutOp p] } htail
      refine ⟨ih.1, ?_⟩
      rw [ih.2]
      by_cases hc : 0 < maxB ∧ maxB < st.counter + 1000 <;>
        simp [hc, sealLayer, opsOfDelta, List.flatMap_cons]
    case Modified =>
      have hs := h ⟨p, .Modified⟩ (List.mem_cons_self _ _) (Or.inl rfl)
      obtain ⟨fi, hl⟩ := Option.isSome_iff_exists.mp hs
      simp only [genLoop, processDelta, hl]
      have ih := genLoop_ops_ok fs opt maxB ds
        { (if 0 < maxB ∧ maxB < st.counter + fi.size + 1000 then sealLayer st else st) with
          cur := (if 0 < maxB ∧ maxB < st.counter + fi.size + 1000 then sealLayer st else st).cur
            ++ (addFile opt (if 0 < maxB ∧ maxB < st.counter + fi.size + 1000 then
                sealLayer st else st).inodes p fi).2,
          counter := (if 0 < maxB ∧ maxB < st.counter + fi.size + 1000 then
              sealLayer st else st).counter
            + entriesBytes (addFile opt (if 0 < maxB ∧ maxB < st.counter + fi.size + 1000 then
                sealLayer st else st).inodes p fi).2,
          inodes := (addFile opt (if 0 < maxB ∧ maxB < st.counter + fi.size + 1000 then
              sealLayer st else st).inodes p fi).1,
          ops := (if 0 < maxB ∧ maxB < st.counter + fi.size + 1000 then
              sealLayer st else st).ops ++ [.addFileOp p] } htail
      refine ⟨ih.1, ?_⟩
      rw [ih.2]
      by_cases hc : 0 < maxB ∧ maxB < st.counter + fi.size + 1000 <;>
        simp [hc, sealLayer, opsOfDelta, List.flatMap_cons]
    case Extra =>
      have hs := h ⟨p, .Extra⟩ (List.mem_cons_self _ _) (Or.inr rfl)
      obtain ⟨fi, hl⟩ := Option.isSome_iff_exists.mp hs
      simp only [genLoop, processDelta, hl]
      have ih := genLoop_ops_ok fs opt maxB ds
        { (if 0 < maxB ∧ maxB < st.counter + fi.size + 1000 then sealLayer st else st) with
          cur := (if 0 < maxB ∧ maxB < st.counter + fi.size + 1000 then sealLayer st else st).cur
            ++ (addFile opt (if 0 < maxB ∧ maxB < st.counter + fi.size + 1000 then
                sealLayer st else st).inodes p fi).2,
          counter := (if 0 < maxB ∧ maxB < st.counter + fi.size + 1000 then
              sealLayer st else st).counter
            + entriesBytes (addFile opt (if 0 < maxB ∧ maxB < st.counter + fi.size + 1000 then
                sealLayer st else st).inodes p fi).2,
          inodes := (addFile opt (if 0 < maxB ∧ maxB < st.counter + fi.size + 1000 then
              sealLayer st else st).inodes p fi).1,
          ops := (if 0 < maxB ∧ maxB < st.counter + fi.size + 1000 then
              sealLayer st else st).ops ++ [.addFileOp p] } htail
      refine ⟨ih.1, ?_⟩
      rw [ih.2]
      by_cases hc : 0 < maxB ∧ maxB < st.counter + fi.size + 1000 <;>
        simp [hc, sealLayer, opsOfDelta, List.flatMap_cons]

end Umoci

namespace Umoci

/-- Any error the loop stops with is a failed `Lstat`, wrapped with the
static context string `"add file lstat"`. -/
theorem genLoop_err_shape (fs : FS) (opt : MapOptions) (maxB : Nat) :
    ∀ (ds : List InodeDelta) (st : GenState) (e : Wrapped),
      (genLoop fs opt maxB ds st).2 = some e →
      ∃ p, e = { contexts := ["add file lstat"], base := GErr.lstatErr p } ∧
        lstat fs p = none
  | [], _, e, h => by simp [genLoop] at h
  | d :: ds, st, e, h => by
    obtain ⟨p, k⟩ := d
    cases k
    case Same =>
      rw [genLoop, processDelta_same_eq] at h
      exact genLoop_err_shape fs opt maxB ds st e h
    case Missing =>
      simp only [genLoop, processDelta] at h
      exact genLoop_err_shape fs opt maxB ds _ e h
    case Modified =>
      cases hl : lstat fs p with
      | none =>
        simp only [genLoop, processDelta, hl] at h
        exact ⟨p, by simp_all, hl⟩
      | some fi =>
        simp only [genLoop, processDelta, hl] at h
        exact genLoop_err_shape fs opt maxB ds _ e h
    case Extra =>
      cases hl : lstat fs p with
      | none =>
        simp only [genLoop, processDelta, hl] at h
        exact ⟨p, by simp_all, hl⟩
      | some fi =>
        simp only [genLoop, processDelta, hl] at h
        exact genLoop_err_shape fs opt maxB ds _ e h

/-- If the loop finished without error, every `Modified`/`Extra` delta's
`Lstat` succeeded. -/
theorem genLoop_none_lstat (fs : FS) (opt : MapOptions) (maxB : Nat) :
    ∀ (ds : List InodeDelta) (st : GenState),
      (genLoop fs opt maxB ds st).2 = none →
      ∀ d ∈ ds, (d.kind = .Modified ∨ d.kind = .Extra) →
        (lstat fs d.path).isSome = true
  | [], _, _, d, hd, _ => by simp at hd
  | d₀ :: ds, st, h, d, hd, hk => by
    obtain ⟨p, k⟩ := d₀
    cases k
    case Same =>
      rw [genLoop, processDelta_same_eq] at h
      rcases List.mem_cons.mp hd with hhead | htail
      · subst hhead; simp at hk
      · exact genLoop_none_lstat fs opt maxB ds st h d htail hk
    case Missing =>
      simp only [genLoop, processDelta] at h
      rcases List.mem_cons.mp hd with hhead | htail
      · subst hhead; simp at hk
      · exact genLoop_none_lstat fs opt maxB ds _ h d htail hk
    case Modified =>
      cases hl : lstat fs p with
      | none => simp only [genLoop, processDelta, hl] at h; simp at h
      | some fi =>
        rcases List.mem_cons.mp hd with hhead | htail
        · subst hhead; simp [hl]
        · simp only [genLoop, processDelta, hl] at h
          exact genLoop_none_lstat fs opt maxB ds _ h d htail hk
    case Extra =>
      cases hl : lstat fs p with
      | none => simp only [genLoop, processDelta, hl] at h; simp at h
      | some fi =>
        rcases List.mem_cons.mp hd with hhead | htail
        · subst hhead; simp [hl]
        · simp only [genLoop, processDelta, hl] at h
          exact genLoop_none_lstat fs opt maxB ds _ h d htail hk

/-- With `maxLayerBytes = 0` the split check never fires: no layer is
ever sealed. -/
theorem genLoop_sealed_zero (fs : FS) (opt : MapOptions) :
    ∀ (ds : List InodeDelta) (st : GenState),
      (genLoop fs opt 0 ds st).1.sealed = st.sealed
  | [], st => rfl
  | d :: ds, st => by
    obtain ⟨p, k⟩ := d
    cases k
    case Same =>
      rw [genLoop, processDelta_same_eq]
      exact genLoop_sealed_zero fs opt ds st
    case Missing =>
      simp only [genLoop, processDelta, Nat.lt_irrefl, false_and, if_false]
      exact (genLoop_sealed_zero fs opt ds _).trans (by simp)
    case Modified =>
      cases hl : lstat fs p with
      | none => simp only [genLoop, processDelta, hl]
      | some fi =>
        simp only [genLoop, processDelta, hl, Nat.lt_irrefl, false_and, if_false]
        exact (genLoop_sealed_zero fs opt ds _).trans (by simp)
    case Extra =>
      cases hl : lstat fs p with
      | none => simp only [genLoop, processDelta, hl]
      | some fi =>
        simp only [genLoop, processDelta, hl, Nat.lt_irrefl, false_and, if_false]
        exact (genLoop_sealed_zero fs opt ds _).trans (by simp)

end Umoci

namespace Umoci

/-- Step equation: a `Missing` delta, both split branches made explicit. -/
theorem processDelta_missing_eq (fs : FS) (opt : MapOptions) (maxB : Nat)
    (st : GenState) (p : String) :
    processDelta fs opt maxB st ⟨p, .Missing⟩ =
      .ok (if 0 < maxB ∧ maxB < st.counter + 1000 then
        { sealed := st.sealed ++ [st.cur], cur := [whiteoutEntryFor p],
          counter := entryBytes (whiteoutEntryFor p), inodes := [],
          ops := st.ops ++ [.addWhiteoutOp p] }
      else
        { sealed := st.sealed, cur := st.cur ++ [whiteoutEntryFor p],
          counter := st.counter + entryBytes (whiteoutEntryFor p),
          inodes := st.inodes, ops := st.ops ++ [.addWhiteoutOp p] }) := by
  by_cases hc : 0 < maxB ∧ maxB < st.counter + 1000 <;>
    simp [processDelta, sealLayer, hc, entriesBytes_singleton]

/-- Step equation: a `Modified`/`Extra` delta whose `Lstat` succeeds, both
split branches made explicit (a split hands `AddFile` the fresh
generator's empty hardlink table). -/
theorem processDelta_file_eq (fs : FS) (opt : MapOptions) (maxB : Nat)
    (st : GenState) (p : String) (fi : FileInfo) (k : DeltaKind)
    (hk : k = .Modified ∨ k = .Extra) (hl : lstat fs p = some fi) :
    processDelta fs opt maxB st ⟨p, k⟩ =
      .ok (if 0 < maxB ∧ maxB < st.counter + fi.size + 1000 then
        { sealed := st.sealed ++ [st.cur],
          cur := (addFile opt [] p fi).2,
          counter := entriesBytes (addFile opt [] p fi).2,
          inodes := (addFile opt [] p fi).1,
          ops := st.ops ++ [.addFileOp p] }
      else
        { sealed := st.sealed, cur := st.cur ++ (addFile opt st.inodes p fi).2,
          counter := st.counter + entriesBytes (addFile opt st.inodes p fi).2,
          inodes := (addFile opt st.inodes p fi).1,
          ops := st.ops ++ [.addFileOp p] }) := by
  rcases hk with rfl | rfl <;>
    (by_cases hc : 0 < maxB ∧ maxB < st.counter + fi.size + 1000 <;>
      simp [processDelta, sealLayer, hl, hc])

/-- One successful step only appends entries to the written output. -/
theorem processDelta_allEntries (fs : FS) (opt : MapOptions) (maxB : Nat)
    (st : GenState) (d : InodeDelta) (st' : GenState)
    (h : processDelta fs opt maxB st d = .ok st') :
    ∃ news, allEntries st' = allEntries st ++ news := by
  obtain ⟨p, k⟩ := d
  cases k
  case Same =>
    rw [processDelta_same_eq] at h
    injection h with h1
    subst h1
    exact ⟨[], by simp⟩
  case Missing =>
    rw [processDelta_missing_eq] at h
    injection h with h1
    subst h1
    by_cases hcond : 0 < maxB ∧ maxB < st.counter + 1000
    · rw [if_pos hcond]
      exact ⟨[whiteoutEntryFor p], by simp [allEntries]⟩
    · rw [if_neg hcond]
      exact ⟨[whiteoutEntryFor p], by simp [allEntries]⟩
  case Modified =>
    cases hl : lstat fs p with
    | none => simp [processDelta, hl] at h
    | some fi =>
      rw [processDelta_file_eq fs opt maxB st p fi .Modified (Or.inl rfl) hl] at h
      injection h with h1
      subst h1
      by_cases hcond : 0 < maxB ∧ maxB < st.counter + fi.size + 1000
      · rw [if_pos hcond]
        exact ⟨(addFile opt [] p fi).2, by simp [allEntries]⟩
      · rw [if_neg hcond]
        exact ⟨(addFile opt st.inodes p fi).2, by simp [allEntries]⟩
  case Extra =>
    cases hl : lstat fs p with
    | none => simp [processDelta, hl] at h
    | some fi =>
      rw [processDelta_file_eq fs opt maxB st p fi .Extra (Or.inr rfl) hl] at h
      injection h with h1
      subst h1
      by_cases hcond : 0 < maxB ∧ maxB < st.counter + fi.size + 1000
      · rw [if_pos hcond]
        exact ⟨(addFile opt [] p fi).2, by simp [allEntries]⟩
      · rw [if_neg hcond]
        exact ⟨(addFile opt st.inodes p fi).2, by simp [allEntries]⟩

/-- The loop only appends entries to the written output. -/
theorem genLoop_allEntries_mono (fs : FS) (opt : MapOptions) (maxB : Nat) :
    ∀ (ds : List InodeDelta) (st : GenState),
      ∃ rest, allEntries (genLoop fs opt maxB ds st).1 = allEntries st ++ rest
  | [], st => ⟨[], by simp [genLoop]⟩
  | d :: ds, st => by
    cases hp : processDelta fs opt maxB st d with
    | error e =>
      simp only [genLoop, hp]
      exact ⟨[], by simp⟩
    | ok st₁ =>
      simp only [genLoop, hp]
      obtain ⟨n1, h1⟩ := processDelta_allEntries fs opt maxB st d st₁ hp
      obtain ⟨n2, h2⟩ := genLoop_allEntries_mono fs opt maxB ds st₁
      exact ⟨n1 ++ n2, by rw [h2, h1, List.append_assoc]⟩

/-- One step preserves the splitter's byte invariants: the counter equals
the bytes of the current stream, stays under `maxB + M + H + 511`, and
every sealed stream (entries plus end marker) is at most
`maxB + M + H + 1535` bytes, where `M` bounds the file sizes involved and
`H` the header bytes of every entry written. -/
theorem processDelta_bound (fs : FS) (opt : MapOptions) (maxB M H : Nat)
    (st : GenState) (d : InodeDelta) (st' : GenState) (hmax : 0 < maxB)
    (h : processDelta fs opt maxB st d = .ok st')
    (hd : deltaFileSize fs d ≤ M)
    (hHe : ∀ e ∈ allEntries st', headerBytesOf e ≤ H)
    (hc : st.counter = entriesBytes st.cur)
    (hb : st.counter ≤ maxB + M + H + 511)
    (hs : ∀ L ∈ st.sealed, entriesBytes L + 1024 ≤ maxB + M + H + 1535) :
    st'.counter = entriesBytes st'.cur ∧ st'.counter ≤ maxB + M + H + 511 ∧
      ∀ L ∈ st'.sealed, entriesBytes L + 1024 ≤ maxB + M + H + 1535 := by
  obtain ⟨p, k⟩ := d
  cases k
  case Same =>
    rw [processDelta_same_eq] at h
    injection h with h1
    subst h1
    exact ⟨hc, hb, hs⟩
  case Missing =>
    rw [processDelta_missing_eq] at h
    injection h with h1
    subst h1
    by_cases hcond : 0 < maxB ∧ maxB < st.counter + 1000
    · rw [if_pos hcond] at hHe ⊢
      have hwb : entryBytes (whiteoutEntryFor p) ≤ H :=
        entryBytes_whiteout_le p H (hHe _ (by simp [allEntries]))
      refine ⟨?_, ?_, ?_⟩
      · simp [entriesBytes_singleton]
      · dsimp only
        omega
      · intro L hL
        rcases (by simpa using hL : L ∈ st.sealed ∨ L = st.cur) with hold | rfl
        · exact hs L hold
        · omega
    · rw [if_neg hcond] at hHe ⊢
      have hwb : entryBytes (whiteoutEntryFor p) ≤ H :=
        entryBytes_whiteout_le p H (hHe _ (by simp [allEntries]))
      have hge : st.counter + 1000 ≤ maxB := by omega
      refine ⟨?_, ?_, ?_⟩
      · simp [entriesBytes_append, entriesBytes_singleton, hc]
      · dsimp only
        omega
      · exact hs
  case Modified =>
    cases hl : lstat fs p with
    | none => simp [processDelta, hl] at h
    | some fi =>
      have hfi : fi.size ≤ M := by
        have hdf : deltaFileSize fs ⟨p, .Modified⟩ = fi.size := by
          simp [deltaFileSize, hl]
        omega
      have hpad := padTo512_le fi.size
      rw [processDelta_file_eq fs opt maxB st p fi .Modified (Or.inl rfl) hl] at h
      injection h with h1
      subst h1
      by_cases hcond : 0 < maxB ∧ maxB < st.counter + fi.size + 1000
      · rw [if_pos hcond] at hHe ⊢
        have hents : ∀ e ∈ (addFile opt [] p fi).2, headerBytesOf e ≤ H := by
          intro e he
          refine hHe e ?_
          dsimp only [allEntries]
          exact List.mem_append_right _ he
        have hab := addFile_bytes_le opt [] p fi H hents
        dsimp only
        refine ⟨rfl, by omega, ?_⟩
        intro L hL
        rcases (by simpa using hL : L ∈ st.sealed ∨ L = st.cur) with hold | rfl
        · exact hs L hold
        · omega
      · rw [if_neg hcond] at hHe ⊢
        have hents : ∀ e ∈ (addFile opt st.inodes p fi).2, headerBytesOf e ≤ H := by
          intro e he
          refine hHe e ?_
          dsimp only [allEntries]
          exact List.mem_append_right _ (List.mem_append_right _ he)
        have hab := addFile_bytes_le opt st.inodes p fi H hents
        have hge : st.counter + fi.size + 1000 ≤ maxB := by omega
        dsimp only
        exact ⟨by simp [entriesBytes_append, hc], by omega, hs⟩
  case Extra =>
    cases hl : lstat fs p with
    | none => simp [processDelta, hl] at h
    | some fi =>
      have hfi : fi.size ≤ M := by
        have hdf : deltaFileSize fs ⟨p, .Extra⟩ = fi.size := by
          simp [deltaFileSize, hl]
        omega
      have hpad := padTo512_le fi.size
      rw [processDelta_file_eq fs opt maxB st p fi .Extra (Or.inr rfl) hl] at h
      injection h with h1
      subst h1
      by_cases hcond : 0 < maxB ∧ maxB < st.counter + fi.size + 1000
      · rw [if_pos hcond] at hHe ⊢
        have hents : ∀ e ∈ (addFile opt [] p fi).2, headerBytesOf e ≤ H := by
          intro e he
          refine hHe e ?_
          dsimp only [allEntries]
          exact List.mem_append_right _ he
        have hab := addFile_bytes_le opt [] p fi H hents
        dsimp only
        refine ⟨rfl, by omega, ?_⟩
        intro L hL
        rcases (by simpa using hL : L ∈ st.sealed ∨ L = st.cur) with hold | rfl
        · exact hs L hold
        · omega
      · rw [if_neg hcond] at hHe ⊢
        have hents : ∀ e ∈ (addFile opt st.inodes p fi).2, headerBytesOf e ≤ H := by
          intro e he
          refine hHe e ?_
          dsimp only [allEntries]
          exact List.mem_append_right _ (List.mem_append_right _ he)
        have hab := addFile_bytes_le opt st.inodes p fi H hents
        have hge : st.counter + fi.size + 1000 ≤ maxB := by omega
        dsimp only
        exact ⟨by simp [entriesBytes_append, hc], by omega, hs⟩

/-- The loop preserves the splitter's byte invariants. -/
theorem genLoop_bound (fs : FS) (opt : MapOptions) (maxB M H : Nat)
    (hmax : 0 < maxB) :
    ∀ (ds : List InodeDelta) (st : GenState),
      (∀ d ∈ ds, deltaFileSize fs d ≤ M) →
      (∀ e ∈ allEntries (genLoop fs opt maxB ds st).1, headerBytesOf e ≤ H) →
      st.counter = entriesBytes st.cur →
      st.counter ≤ maxB + M + H + 511 →
      (∀ L ∈ st.sealed, entriesBytes L + 1024 ≤ maxB + M + H + 1535) →
      ((genLoop fs opt maxB ds st).1.counter
          = entriesBytes (genLoop fs opt maxB ds st).1.cur ∧
        (genLoop fs opt maxB ds st).1.counter ≤ maxB + M + H + 511 ∧
        ∀ L ∈ (genLoop fs opt maxB ds st).1.sealed,
          entriesBytes L + 1024 ≤ maxB + M + H + 1535)
  | [], st, _, _, hc, hb, hs => ⟨hc, hb, hs⟩
  | d :: ds, st, hall, hH, hc, hb, hs => by
    cases hp : processDelta fs opt maxB st d with
    | error e =>
      simp only [genLoop, hp]
      exact ⟨hc, hb, hs⟩
    | ok st₁ =>
      simp only [genLoop, hp]
      simp only [genLoop, hp] at hH
      have hHst₁ : ∀ e ∈ allEntries st₁, headerBytesOf e ≤ H := by
        obtain ⟨rest, hrest⟩ := genLoop_allEntries_mono fs opt maxB ds st₁
        intro e he
        exact hH e (by rw [hrest]; exact List.mem_append_left _ he)
      have hinv := processDelta_bound fs opt maxB M H st d st₁ hmax hp
        (hall d (List.mem_cons_self _ _)) hHst₁ hc hb hs
      exact genLoop_bound fs opt maxB M H hmax ds st₁
        (fun d hd => hall d (List.mem_cons_of_mem _ hd)) hH hinv.1 hinv.2.1 hinv.2.2

/-- Each delta's file size is at most the maximum over the set. -/
theorem deltaFileSize_le_max (fs : FS) :
    ∀ (ds : List InodeDelta) (d : InodeDelta), d ∈ ds →
      deltaFileSize fs d ≤ maxSingleFileSize fs ds
  | [], d, hd => by simp at hd
  | d₀ :: ds, d, hd => by
    have hun : maxSingleFileSize fs (d₀ :: ds)
        = Nat.max (deltaFileSize fs d₀) (maxSingleFileSize fs ds) := by
      simp [maxSingleFileSize]
    rcases List.mem_cons.mp hd with hhead | htail
    · subst hhead
      rw [hun]
      exact Nat.le_max_left _ _
    · refine (deltaFileSize_le_max fs ds d htail).trans ?_
      rw [hun]
      exact Nat.le_max_right _ _

/-- Unfolding `generateLayers` when the loop stops with an error. -/
theorem generateLayers_eq_of_err (fs : FS) (tc : Option GErr)
    (ds : List InodeDelta) (opt : MapOptions) (maxB : Nat) (st : GenState)
    (e : Wrapped)
    (h : genLoop fs opt maxB (sortDeltas ds) initState = (st, some e)) :
    generateLayers fs tc ds opt maxB =
      { sealed := st.sealed, last := st.cur, lastClosed := false,
        ops := st.ops, err := some e } := by
  unfold generateLayers
  rw [h]

/-- Unfolding `generateLayers` when the loop succeeds but the final
`tw.Close()` fails. -/
theorem generateLayers_eq_of_closeErr (fs : FS) (ds : List InodeDelta)
    (opt : MapOptions) (maxB : Nat) (st : GenState) (ce : GErr)
    (h : genLoop fs opt maxB (sortDeltas ds) initState = (st, none)) :
    generateLayers fs (some ce) ds opt maxB =
      { sealed := st.sealed, last := st.cur, lastClosed := false, ops := st.ops,
        err := some { contexts := ["close tar writer"], base := ce } } := by
  unfold generateLayers
  rw [h]

/-- Unfolding `generateLayers` on a fully successful run. -/
theorem generateLayers_eq_of_ok (fs : FS) (ds : List InodeDelta)
    (opt : MapOptions) (maxB : Nat) (st : GenState)
    (h : genLoop fs opt maxB (sortDeltas ds) initState = (st, none)) :
    generateLayers fs none ds opt maxB =
      { sealed := st.sealed, last := st.cur, lastClosed := true,
        ops := st.ops, err := none } := by
  unfold generateLayers
  rw [h]

/-- In every error situation, the entries of the result are exactly what
the loop wrote. -/
theorem generateLayers_outputEntries (fs : FS) (tc : Option GErr)
    (ds : List InodeDelta) (opt : MapOptions) (maxB : Nat) :
    outputEntries (generateLayers fs tc ds opt maxB)
      = allEntries (genLoop fs opt maxB (sortDeltas ds) initState).1 := by
  unfold generateLayers outputEntries allEntries
  rcases genLoop fs opt maxB (sortDeltas ds) initState with ⟨st, err⟩
  cases err <;> cases tc <;> rfl

/-- The splitter invariants bound every published stream. -/
theorem streams_bound_of_inv (st : GenState) (flag : Bool) (maxB M H : Nat)
    (h1 : st.counter = entriesBytes st.cur)
    (h2 : st.counter ≤ maxB + M + H + 511)
    (h3 : ∀ L ∈ st.sealed, entriesBytes L + 1024 ≤ maxB + M + H + 1535) :
    ∀ s ∈ st.sealed.map (fun l => (l, true)) ++ [(st.cur, flag)],
      streamSize s ≤ maxB + M + H + 1535 := by
  intro s hs
  rcases List.mem_append.mp hs with hmap | hlast
  · obtain ⟨L, hL, rfl⟩ := List.mem_map.mp hmap
    simpa [streamSize] using h3 L hL
  · have hse : s = (st.cur, flag) := by simpa using hlast
    subst hse
    cases flag <;> simp [streamSize] <;> omega

end Umoci

namespace Umoci

/-- The sealed streams of the result are those of the loop, whatever the
error situation. -/
theorem generateLayers_sealed (fs : FS) (tc : Option GErr)
    (ds : List InodeDelta) (opt : MapOptions) (maxB : Nat) :
    (generateLayers fs tc ds opt maxB).sealed
      = (genLoop fs opt maxB (sortDeltas ds) initState).1.sealed := by
  unfold generateLayers
  rcases genLoop fs opt maxB (sortDeltas ds) initState with ⟨st, err⟩
  cases err <;> cases tc <;> rfl

/-- The operations of the result are those of the loop, whatever the
error situation. -/
theorem generateLayers_ops_eq (fs : FS) (tc : Option GErr)
    (ds : List InodeDelta) (opt : MapOptions) (maxB : Nat) :
    (generateLayers fs tc ds opt maxB).ops
      = (genLoop fs opt maxB (sortDeltas ds) initState).1.ops := by
  unfold generateLayers
  rcases genLoop fs opt maxB (sortDeltas ds) initState with ⟨st, err⟩
  cases err <;> cases tc <;> rfl

/-! ## Claims -/

/-! ### Claim C1 -/

/-- Claim C1, counterexample: for the delta set
`[{d/a, Extra}, {d/b, Missing}]` — a `Missing` and an `Extra` delta in the
same parent directory `d` — the generator emits the addition `d/a` first
and the whiteout `d/.wh.b` after it: deltas are processed in sorted path
order, whiteouts are not moved ahead of same-directory additions. -/
theorem whiteout_order_counterexample :
    outputEntries (generateLayers whiteoutOrderCexFS none whiteoutOrderCexDeltas {} 0) =
      [{ name := "d/a", etype := .Reg, size := 5, linkname := "" },
        { name := "d/.wh.b", etype := .Reg, size := 0, linkname := "" }] ∧
    (splitPath "d/a").1 = (splitPath "d/b").1 ∧
    ¬ ((outputEntries (generateLayers whiteoutOrderCexFS none whiteoutOrderCexDeltas {} 0)).indexOf
          { name := "d/.wh.b", etype := .Reg, size := 0, linkname := "" } <
        (outputEntries (generateLayers whiteoutOrderCexFS none whiteoutOrderCexDeltas {} 0)).indexOf
          { name := "d/a", etype := .Reg, size := 5, linkname := "" }) := by
  decide

/-- Claim C1 (amended): the generator relies on the lexicographic sort
alone and does not partition whiteouts ahead of same-directory additions;
for deltas at the *same path*, such as the replacement
`[{d/x, Missing}, {d/x, Extra}]`, the sort keeps the input order, so the
whiteout `d/.wh.x` (empty regular file) is emitted first and `d/x`
second. -/
theorem whiteout_order_same_path :
    outputEntries (generateLayers whiteoutOrderFS none whiteoutOrderDeltas {} 0) =
      [{ name := "d/.wh.x", etype := .Reg, size := 0, linkname := "" },
        { name := "d/x", etype := .Reg, size := 5, linkname := "" }] := by
  decide

/-! ### Claim C3 -/

/-- Claim C3 (amended): with a positive byte budget, every stream
`GenerateLayers` publishes holds at most
`max_layer_bytes + max_single_file_size + H + 1535` uncompressed bytes,
for any `H` bounding the header bytes (the USTAR block plus any PAX
extended-header block and padded payload) of each single entry of the
output.  The budget is a soft target whose overshoot grows with the
largest entry header, as §9 warns; when every entry fits the plain USTAR
header (`H = 512`) this is `max_layer_bytes + max_single_file_size +
2047`.  Splitting is entry-granular: an entry is never divided between
streams. -/
theorem layer_stream_size_bound (fs : FS) (twCloseErr : Option GErr)
    (ds : List InodeDelta) (opt : MapOptions) (maxB H : Nat) (hmax : 0 < maxB)
    (hH : ∀ e ∈ outputEntries (generateLayers fs twCloseErr ds opt maxB),
      headerBytesOf e ≤ H) :
    ∀ s ∈ layerStreams (generateLayers fs twCloseErr ds opt maxB),
      streamSize s ≤ maxB + maxSingleFileSize fs ds + H + 1535 := by
  have hall : ∀ d ∈ sortDeltas ds, deltaFileSize fs d ≤ maxSingleFileSize fs ds :=
    fun d hd => deltaFileSize_le_max fs ds d ((sortDeltas_perm ds).mem_iff.mp hd)
  have hH' : ∀ e ∈ allEntries (genLoop fs opt maxB (sortDeltas ds) initState).1,
      headerBytesOf e ≤ H := by
    rw [← generateLayers_outputEntries fs twCloseErr ds opt maxB]
    exact hH
  have hinv := genLoop_bound fs opt maxB (maxSingleFileSize fs ds) H hmax (sortDeltas ds)
    initState hall hH' rfl (Nat.zero_le _) (by simp [initState])
  rcases hE : genLoop fs opt maxB (sortDeltas ds) initState with ⟨st, err⟩
  rw [hE] at hinv
  cases err with
  | some e =>
    rw [generateLayers_eq_of_err fs twCloseErr ds opt maxB st e hE]
    intro s hs
    exact streams_bound_of_inv st false maxB _ H hinv.1 hinv.2.1 hinv.2.2 s
      (by simpa [layerStreams] using hs)
  | none =>
    cases twCloseErr with
    | some ce =>
      rw [generateLayers_eq_of_closeErr fs ds opt maxB st ce hE]
      intro s hs
      exact streams_bound_of_inv st false maxB _ H hinv.1 hinv.2.1 hinv.2.2 s
        (by simpa [layerStreams] using hs)
    | none =>
      rw [generateLayers_eq_of_ok fs ds opt maxB st hE]
      intro s hs
      exact streams_bound_of_inv st true maxB _ H hinv.1 hinv.2.1 hinv.2.2 s
        (by simpa [layerStreams] using hs)

/-- Claim C3, counterexample.  First, with `max_layer_bytes = 1` and one
`Extra` empty file, the first published stream is an empty sealed layer
of 1024 bytes (the end-of-archive marker alone) while the claim's bound
`max_layer_bytes + max_single_file_size` is `1 + 0 = 1`.  Second, no
fixed additive constant repairs it: two empty files with 600-character
names (2048 header bytes each: PAX header block, 1024-byte padded PAX
payload, USTAR block) at `max_layer_bytes = 3048` pass every split check
and produce a single 5120-byte stream, above even
`max_layer_bytes + max_single_file_size + 2047 = 5095`. -/
theorem layer_stream_size_counterexample :
    ((layerStreams (generateLayers sizeBoundCexFS none sizeBoundCexDeltas {} 1)).map
          streamSize = [1024, 1536] ∧
      maxSingleFileSize sizeBoundCexFS sizeBoundCexDeltas = 0 ∧
      ¬ (1024 ≤ 1 + maxSingleFileSize sizeBoundCexFS sizeBoundCexDeltas)) ∧
    ((layerStreams (generateLayers paxBoundCexFS none paxBoundCexDeltas {} 3048)).map
          streamSize = [5120] ∧
      maxSingleFileSize paxBoundCexFS paxBoundCexDeltas = 0 ∧
      ¬ (5120 ≤ 3048 + maxSingleFileSize paxBoundCexFS paxBoundCexDeltas + 2047)) := by
  decide

/-- Witness for the C3 amended bound at a concrete input (`H = 512`,
every entry a short-named USTAR one). -/
theorem layer_stream_size_bound_witness :
    0 < 1 ∧ streamSize ([], true)
      ≤ 1 + maxSingleFileSize sizeBoundCexFS sizeBoundCexDeltas + 512 + 1535 :=
  ⟨Nat.one_pos,
    layer_stream_size_bound sizeBoundCexFS none sizeBoundCexDeltas {} 1 512 Nat.one_pos
      (by decide) ([], true) (by decide)⟩

/-! ### Claim C6 -/

/-- Claim C6: on an empty or all-`Same` delta set, `GenerateLayers`
publishes exactly one stream, with no entries and a completed close, and
its byte content is exactly two 512-byte zero blocks. -/
theorem empty_diff_single_empty_layer (fs : FS) (ds : List InodeDelta)
    (opt : MapOptions) (maxB : Nat) (hsame : ∀ d ∈ ds, d.kind = .Same) :
    layerStreams (generateLayers fs none ds opt maxB) = [([], true)] ∧
    (layerStreams (generateLayers fs none ds opt maxB)).map renderStream =
      [List.replicate 1024 0] := by
  have hsame' : ∀ d ∈ sortDeltas ds, d.kind = .Same :=
    fun d hd => hsame d ((sortDeltas_perm ds).mem_iff.mp hd)
  have hloop := genLoop_all_same fs opt maxB (sortDeltas ds) initState hsame'
  rw [generateLayers_eq_of_ok fs ds opt maxB initState hloop]
  constructor
  · simp [layerStreams, initState]
  · simp [layerStreams, initState, renderStream]

/-- Witness for C6 at a concrete all-`Same` input. -/
theorem empty_diff_single_empty_layer_witness :
    layerStreams (generateLayers [] none [⟨"a", DeltaKind.Same⟩] {} 5) = [([], true)] :=
  (empty_diff_single_empty_layer [] [⟨"a", .Same⟩] {} 5 (by decide)).1

/-! ### Claim C8 -/

/-- Claim C8: the Noop compressor is the identity on byte streams (its
`withClose` wrapper reads exactly the inner bytes and `Close` is a no-op)
and `MediaType()` returns the string it was constructed with. -/
theorem noop_compressor_identity (bs : List Nat) (m : String) :
    ((NewNoopCompressor m).Compress bs).ReadAll = bs ∧
    (NewNoopCompressor m).MediaType = m :=
  ⟨rfl, rfl⟩

/-! ### Claim C9 -/

/-- Claim C9: the repack driver's masked-path set is the union of the
`--mask-path` values and the image config's `Config.Volumes` keys, the
volume keys being omitted exactly when `--no-mask-volumes` is set. -/
theorem masked_paths_union (maskFlag configVolumes : List String)
    (noMaskVolumes : Bool) (p : String) :
    p ∈ repackMaskedPaths maskFlag configVolumes noMaskVolumes ↔
      (p ∈ maskFlag ∨ (noMaskVolumes = false ∧ p ∈ configVolumes)) := by
  unfold repackMaskedPaths
  cases noMaskVolumes <;> simp

/-! ### Claim C10 -/

/-- Claim C10: with `maxLayerBytes = 0` the split check never fires, so
`GenerateLayers` publishes exactly one stream, and `GenerateLayer` returns
precisely that stream. -/
theorem generateLayer_single_stream (fs : FS) (twCloseErr : Option GErr)
    (ds : List InodeDelta) (opt : MapOptions) :
    (generateLayers fs twCloseErr ds opt 0).sealed = [] ∧
    (layerStreams (generateLayers fs twCloseErr ds opt 0)).length = 1 ∧
    layerStreams (generateLayers fs twCloseErr ds opt 0) =
      [generateLayer fs twCloseErr ds opt] := by
  have hsealed : (generateLayers fs twCloseErr ds opt 0).sealed = [] := by
    rw [generateLayers_sealed]
    simpa [initState] using genLoop_sealed_zero fs opt (sortDeltas ds) initState
  refine ⟨hsealed, ?_, ?_⟩
  · simp [layerStreams, hsealed]
  · simp [generateLayer, layerStreams, hsealed]

end Umoci

namespace Umoci

/-! ### Claim C4 -/

/-- Claim C4, counterexample: at `max_layer_bytes = 1010` with one
`Extra` empty file, the code (`counter + size + 1000 > max`) does not
split and publishes one stream, while the claim's splitter
(`counter + size + 1024 > max`) splits and publishes two: the header
slack is 1000, not 1024. -/
theorem header_slack_counterexample :
    (layerStreams (generateLayers headerSlackCexFS none headerSlackCexDeltas {} 1010)).length
        = 1 ∧
    (layerStreams (generateLayersSlack1024 headerSlackCexFS none headerSlackCexDeltas {}
        1010)).length = 2 := by
  decide

/-- Claim C4 (amended): before each add the splitter predicts the entry's
cost as `file_size + 1000` (1000-byte header slack; the size is zero for
whiteouts), and it seals the current layer — the sealed stream is the
layer accumulated so far — exactly when `max_layer_bytes > 0` and the
written-byte counter plus this cost exceeds `max_layer_bytes`. -/
theorem split_condition_slack_1000 (fs : FS) (opt : MapOptions) (maxB : Nat)
    (st st' : GenState) (d : InodeDelta) (hk : d.kind ≠ .Same)
    (h : processDelta fs opt maxB st d = .ok st') :
    (st'.sealed ≠ st.sealed ↔ (0 < maxB ∧ maxB < st.counter + deltaCost fs d)) ∧
    (st'.sealed ≠ st.sealed → st'.sealed = st.sealed ++ [st.cur]) := by
  obtain ⟨p, k⟩ := d
  cases k
  case Same => exact absurd rfl hk
  case Missing =>
    rw [processDelta_missing_eq] at h
    injection h with h1
    subst h1
    by_cases hcond : 0 < maxB ∧ maxB < st.counter + 1000
    · rw [if_pos hcond]
      dsimp only
      refine ⟨⟨fun _ => by simpa [deltaCost] using hcond, fun _ => by simp⟩, fun _ => rfl⟩
    · rw [if_neg hcond]
      dsimp only
      exact ⟨⟨fun hne => absurd rfl hne,
        fun hcd => absurd (by simpa [deltaCost] using hcd) hcond⟩,
        fun hne => absurd rfl hne⟩
  case Modified =>
    cases hl : lstat fs p with
    | none => simp [processDelta, hl] at h
    | some fi =>
      rw [processDelta_file_eq fs opt maxB st p fi .Modified (Or.inl rfl) hl] at h
      injection h with h1
      subst h1
      have hcost : deltaCost fs ⟨p, DeltaKind.Modified⟩ = fi.size + 1000 := by
        simp [deltaCost, deltaFileSize, hl]
      by_cases hcond : 0 < maxB ∧ maxB < st.counter + fi.size + 1000
      · rw [if_pos hcond]
        dsimp only
        refine ⟨⟨fun _ => by rw [hcost]; omega, fun _ => by simp⟩, fun _ => rfl⟩
      · rw [if_neg hcond]
        dsimp only
        exact ⟨⟨fun hne => absurd rfl hne,
          fun hcd => absurd (by rw [hcost] at hcd; omega) hcond⟩,
          fun hne => absurd rfl hne⟩
  case Extra =>
    cases hl : lstat fs p with
    | none => simp [processDelta, hl] at h
    | some fi =>
      rw [processDelta_file_eq fs opt maxB st p fi .Extra (Or.inr rfl) hl] at h
      injection h with h1
      subst h1
      have hcost : deltaCost fs ⟨p, DeltaKind.Extra⟩ = fi.size + 1000 := by
        simp [deltaCost, deltaFileSize, hl]
      by_cases hcond : 0 < maxB ∧ maxB < st.counter + fi.size + 1000
      · rw [if_pos hcond]
        dsimp only
        refine ⟨⟨fun _ => by rw [hcost]; omega, fun _ => by simp⟩, fun _ => rfl⟩
      · rw [if_neg hcond]
        dsimp only
        exact ⟨⟨fun hne => absurd rfl hne,
          fun hcd => absurd (by rw [hcost] at hcd; omega) hcond⟩,
          fun hne => absurd rfl hne⟩

/-- Witness for the C4 amended split condition at a concrete input. -/
theorem split_condition_slack_1000_witness :
    (headerSlackWitnessState.sealed ≠ initState.sealed ↔
      (0 < 1 ∧ 1 < initState.counter + deltaCost headerSlackCexFS ⟨"a", DeltaKind.Extra⟩)) ∧
    (headerSlackWitnessState.sealed ≠ initState.sealed →
      headerSlackWitnessState.sealed = initState.sealed ++ [initState.cur]) :=
  split_condition_slack_1000 headerSlackCexFS {} 1 initState headerSlackWitnessState
    ⟨"a", .Extra⟩ (by decide) (by rfl)

end Umoci

namespace Umoci

/-! ### Claim C5 -/

theorem opsOfDelta_addFile_mem (d' : InodeDelta) (p : String) :
    GenOp.addFileOp p ∈ opsOfDelta d' ↔
      (d'.path = p ∧ (d'.kind = .Modified ∨ d'.kind = .Extra)) := by
  obtain ⟨q, k⟩ := d'
  cases k <;> simp [opsOfDelta, eq_comm]

theorem opsOfDelta_addWhiteout_mem (d' : InodeDelta) (p : String) :
    GenOp.addWhiteoutOp p ∈ opsOfDelta d' ↔ (d'.path = p ∧ d'.kind = .Missing) := by
  obtain ⟨q, k⟩ := d'
  cases k <;> simp [opsOfDelta, eq_comm]

/-- Claim C5: when every delta path is unique and every `Modified`/`Extra`
path can be `Lstat`ed, the generator invokes `AddFile` (archive the
path's current on-disk state) for a delta exactly when its kind is
`Modified` or `Extra`, invokes `AddWhiteout` exactly when the kind is
`Missing`, and invokes nothing for `Same`. -/
theorem delta_kind_dispatch (fs : FS) (twCloseErr : Option GErr)
    (ds : List InodeDelta) (opt : MapOptions) (maxB : Nat)
    (hnodup : (ds.map InodeDelta.path).Nodup)
    (hl : ∀ d ∈ ds, (d.kind = .Modified ∨ d.kind = .Extra) →
      (lstat fs d.path).isSome = true) :
    ∀ d ∈ ds,
      ((GenOp.addFileOp d.path ∈ (generateLayers fs twCloseErr ds opt maxB).ops) ↔
        (d.kind = .Modified ∨ d.kind = .Extra)) ∧
      ((GenOp.addWhiteoutOp d.path ∈ (generateLayers fs twCloseErr ds opt maxB).ops) ↔
        d.kind = .Missing) := by
  intro d hd
  have hperm := sortDeltas_perm ds
  have hl' : ∀ d ∈ sortDeltas ds, (d.kind = .Modified ∨ d.kind = .Extra) →
      (lstat fs d.path).isSome = true :=
    fun d hds => hl d (hperm.mem_iff.mp hds)
  have hops := (genLoop_ops_ok fs opt maxB (sortDeltas ds) initState hl').2
  rw [generateLayers_ops_eq, hops]
  simp only [initState, List.nil_append]
  constructor
  · rw [List.mem_flatMap]
    constructor
    · rintro ⟨d', hd', hop⟩
      rw [opsOfDelta_addFile_mem] at hop
      have hde : d' = d :=
        List.inj_on_of_nodup_map hnodup (hperm.mem_iff.mp hd') hd hop.1
      exact hde ▸ hop.2
    · intro hkind
      exact ⟨d, hperm.mem_iff.mpr hd, (opsOfDelta_addFile_mem d d.path).mpr ⟨rfl, hkind⟩⟩
  · rw [List.mem_flatMap]
    constructor
    · rintro ⟨d', hd', hop⟩
      rw [opsOfDelta_addWhiteout_mem] at hop
      have hde : d' = d :=
        List.inj_on_of_nodup_map hnodup (hperm.mem_iff.mp hd') hd hop.1
      exact hde ▸ hop.2
    · intro hkind
      exact ⟨d, hperm.mem_iff.mpr hd, (opsOfDelta_addWhiteout_mem d d.path).mpr ⟨rfl, hkind⟩⟩

/-- Witness for C5 at a concrete input. -/
theorem delta_kind_dispatch_witness :
    (GenOp.addFileOp "a" ∈
        (generateLayers dispatchWitnessFS none dispatchWitnessDeltas {} 0).ops) ∧
    (GenOp.addWhiteoutOp "b" ∈
        (generateLayers dispatchWitnessFS none dispatchWitnessDeltas {} 0).ops) ∧
    ¬ (GenOp.addWhiteoutOp "c" ∈
        (generateLayers dispatchWitnessFS none dispatchWitnessDeltas {} 0).ops) := by
  have h := delta_kind_dispatch dispatchWitnessFS none dispatchWitnessDeltas {} 0
    (by decide) (by decide)
  refine ⟨?_, ?_, ?_⟩
  · exact (h ⟨"a", .Extra⟩ (by decide)).1.mpr (Or.inr rfl)
  · exact (h ⟨"b", .Missing⟩ (by decide)).2.mpr rfl
  · intro hmem
    exact absurd ((h ⟨"c", .Same⟩ (by decide)).2.mp hmem) (by decide)

end Umoci

namespace Umoci

/-! ### Claim C7 -/

/-- Claim C7: the producer wraps each failing operation with its static
context string (`"add file lstat"` for a failed `Lstat`,
`"close tar writer"` for a failed close) and the deferred
`CloseWithError` hands exactly that wrapped error (under the outer
`"generate layer"` context) to the pipe, so the consumer observes the
failure; the pipe is closed without error exactly when every delta was
processed and the final tar-writer close succeeded. -/
theorem error_propagation (fs : FS) (twCloseErr : Option GErr)
    (ds : List InodeDelta) (opt : MapOptions) (maxB : Nat) :
    ((generateLayers fs twCloseErr ds opt maxB).err = none ↔
      (twCloseErr = none ∧ ∀ d ∈ ds, (d.kind = .Modified ∨ d.kind = .Extra) →
        (lstat fs d.path).isSome = true)) ∧
    (∀ e, (generateLayers fs twCloseErr ds opt maxB).err = some e →
      ((∃ p, e = { contexts := ["add file lstat"], base := GErr.lstatErr p } ∧
          lstat fs p = none) ∨
        (∃ ce, twCloseErr = some ce ∧
          e = { contexts := ["close tar writer"], base := ce }))) ∧
    pipeCloseError (generateLayers fs twCloseErr ds opt maxB) =
      (generateLayers fs twCloseErr ds opt maxB).err.map (wrapMsg "generate layer") ∧
    ((generateLayers fs twCloseErr ds opt maxB).err = none →
      (generateLayers fs twCloseErr ds opt maxB).lastClosed = true) := by
  rcases hE : genLoop fs opt maxB (sortDeltas ds) initState with ⟨st, err⟩
  cases err with
  | some e0 =>
    rw [generateLayers_eq_of_err fs twCloseErr ds opt maxB st e0 hE]
    refine ⟨?_, ?_, rfl, ?_⟩
    · constructor
      · intro hc
        exact absurd hc (by simp)
      · rintro ⟨htc, hall⟩
        have hall' : ∀ d ∈ sortDeltas ds, (d.kind = .Modified ∨ d.kind = .Extra) →
            (lstat fs d.path).isSome = true :=
          fun d hd => hall d ((sortDeltas_perm ds).mem_iff.mp hd)
        have hok := (genLoop_ops_ok fs opt maxB (sortDeltas ds) initState hall').1
        rw [hE] at hok
        exact absurd hok (by simp)
    · intro e he
      have he0 : e0 = e := by simpa using he
      subst he0
      left
      have hshape := genLoop_err_shape fs opt maxB (sortDeltas ds) initState e0
        (by rw [hE])
      exact hshape
    · intro hc
      exact absurd hc (by simp)
  | none =>
    have hlstat := genLoop_none_lstat fs opt maxB (sortDeltas ds) initState (by rw [hE])
    cases twCloseErr with
    | some ce =>
      rw [generateLayers_eq_of_closeErr fs ds opt maxB st ce hE]
      refine ⟨?_, ?_, rfl, ?_⟩
      · constructor
        · intro hc
          exact absurd hc (by simp)
        · rintro ⟨htc, _⟩
          exact absurd htc (by simp)
      · intro e he
        right
        exact ⟨ce, rfl, by simpa using he.symm⟩
      · intro hc
        exact absurd hc (by simp)
    | none =>
      rw [generateLayers_eq_of_ok fs ds opt maxB st hE]
      refine ⟨?_, ?_, rfl, fun _ => rfl⟩
      · constructor
        · intro _
          exact ⟨rfl, fun d hd hk =>
            hlstat d ((sortDeltas_perm ds).mem_iff.mpr hd) hk⟩
        · intro _
          rfl
      · intro e he
        exact absurd he (by simp)

/-- Witness for C7 at a concrete input: the loop succeeds but the final
close fails, and the pipe reports the wrapped close error. -/
theorem error_propagation_witness :
    ¬ ((generateLayers [] (some GErr.sinkErr) ([] : List InodeDelta) {} 0).err = none) := by
  intro hnone
  have h := (error_propagation [] (some GErr.sinkErr) [] {} 0).1.mp hnone
  exact absurd h.1 (by simp)

end Umoci

namespace Umoci

/-! ### Claim C2 -/

/-- Every `Char` entry `AddFile` emits carries the file's own tar path and
arises only for an untranslated character device. -/
theorem addFile_char_entry (opt : MapOptions) (tab : InodeTable) (n : String)
    (fi : FileInfo) :
    ∀ e ∈ (addFile opt tab n fi).2, e.etype = .Char →
      (fi.ftype = .Char ∧ e.name = n ∧
        ¬(opt.translateOverlayWhiteouts = true ∧ fi.rdevMajor = 0 ∧
            fi.rdevMinor = 0)) := by
  obtain ⟨ft, sz, maj, mnr, nl, dv, io, ltg⟩ := fi
  unfold addFile
  cases ft
  case Reg =>
    by_cases h : 1 < nl
    · simp only [if_pos h]
      cases hfind : (tab.find? fun e => e.1 == (dv, io)).map (fun e => e.2) with
      | some first =>
        intro e he hc
        have : e = { name := n, etype := .Link, size := 0, linkname := first } := by
          simpa using he
        subst this
        simp at hc
      | none =>
        intro e he hc
        have : e = { name := n, etype := .Reg, size := sz, linkname := "" } := by
          simpa using he
        subst this
        simp at hc
    · intro e he hc
      have : e = { name := n, etype := .Reg, size := sz, linkname := "" } := by
        simpa [if_neg h] using he
      subst this
      simp at hc
  case Dir =>
    intro e he hc
    have : e = { name := n, etype := .Dir, size := 0, linkname := "" } := by simpa using he
    subst this
    simp at hc
  case Symlink =>
    intro e he hc
    have : e = { name := n, etype := .Symlink, size := 0, linkname := ltg } := by
      simpa using he
    subst this
    simp at hc
  case Char =>
    cases hcond : (opt.translateOverlayWhiteouts && maj == 0 && mnr == 0) with
    | true =>
      intro e he hc
      have : e = whiteoutEntryFor n := by simpa [hcond] using he
      subst this
      simp [whiteoutEntryFor] at hc
    | false =>
      intro e he hc
      have : e = { name := n, etype := .Char, size := 0, linkname := "" } := by
        simpa [hcond] using he
      subst this
      refine ⟨rfl, rfl, ?_⟩
      rintro ⟨h1, h2, h3⟩
      simp only at h2 h3
      simp [h1, h2, h3] at hcond
  case Block =>
    intro e he hc
    have : e = { name := n, etype := .Block, size := 0, linkname := "" } := by
      simpa using he
    subst this
    simp at hc
  case Fifo =>
    intro e he hc
    have : e = { name := n, etype := .Fifo, size := 0, linkname := "" } := by
      simpa using he
    subst this
    simp at hc
  case Socket =>
    intro e he hc
    simp at he

/-- A character device at `(0, 0)` is rewritten as exactly the OCI
whiteout for its own path when translation is on. -/
theorem addFile_translated_whiteout (opt : MapOptions) (tab : InodeTable)
    (n : String) (fi : FileInfo) (hopt : opt.translateOverlayWhiteouts = true)
    (hft : fi.ftype = .Char) (hmaj : fi.rdevMajor = 0) (hmnr : fi.rdevMinor = 0) :
    (addFile opt tab n fi).2 = [whiteoutEntryFor n] := by
  obtain ⟨ft, sz, maj, mnr, nl, dv, io, ltg⟩ := fi
  simp only at hft hmaj hmnr
  subst hft
  subst hmaj
  subst hmnr
  simp [addFile, hopt]

/-- The walk emits the synthesized whiteout of every `(0, 0)` character
device it visits. -/
theorem walkEntries_whiteout_mem (opt : MapOptions) (target : String)
    (hopt : opt.translateOverlayWhiteouts = true) :
    ∀ (l : List (String × FileInfo)) (tab : InodeTable) (rel : String) (fi : FileInfo),
      (rel, fi) ∈ l → fi.ftype = .Char → fi.rdevMajor = 0 → fi.rdevMinor = 0 →
      whiteoutEntryFor (joinPath target rel) ∈ walkEntries opt target l tab
  | [], _, rel, fi, hmem, _, _, _ => by simp at hmem
  | (rel₀, fi₀) :: rest, tab, rel, fi, hmem, hft, hmaj, hmnr => by
    rcases List.mem_cons.mp hmem with hhead | htail
    · obtain ⟨h1, h2⟩ := Prod.mk.inj hhead
      subst h1
      subst h2
      simp only [walkEntries,
        addFile_translated_whiteout opt tab (joinPath target rel) fi hopt hft hmaj hmnr]
      exact List.mem_append.mpr (Or.inl (by simp))
    · simp only [walkEntries]
      exact List.mem_append.mpr (Or.inr
        (walkEntries_whiteout_mem opt target hopt rest _ rel fi htail hft hmaj hmnr))

/-- The walk never emits a `Char` header at the tar path of a `(0, 0)`
character device (given that no other listing entry shares that tar
path). -/
theorem walkEntries_no_char_at (opt : MapOptions) (target : String)
    (rel : String) (fi : FileInfo) (hopt : opt.translateOverlayWhiteouts = true)
    (hmaj : fi.rdevMajor = 0) (hmnr : fi.rdevMinor = 0) :
    ∀ (l : List (String × FileInfo)) (tab : InodeTable),
      (∀ x ∈ l, joinPath target x.1 = joinPath target rel → x = (rel, fi)) →
      ∀ e ∈ walkEntries opt target l tab, e.name = joinPath target rel →
        e.etype ≠ .Char
  | [], _, _, e, he, _ => by simp [walkEntries] at he
  | (rel₀, fi₀) :: rest, tab, huniq, e, he, hname => by
    simp only [walkEntries] at he
    rcases List.mem_append.mp he with hfirst | hrest
    · intro hchar
      have hinfo := addFile_char_entry opt tab (joinPath target rel₀) fi₀ e hfirst hchar
      have hx : (rel₀, fi₀) = (rel, fi) :=
        huniq (rel₀, fi₀) (List.mem_cons_self _ _) (by rw [← hinfo.2.1, hname])
      obtain ⟨h1, h2⟩ := Prod.mk.inj hx
      subst h1
      subst h2
      exact hinfo.2.2 ⟨hopt, hmaj, hmnr⟩
    · exact walkEntries_no_char_at opt target rel fi hopt hmaj hmnr rest _
        (fun x hx => huniq x (List.mem_cons_of_mem _ hx)) e hrest hname

/-- Claim C2: with `translate_overlay_whiteouts = true`, every character
device at `(0, 0)` in the walked tree produces no `Char` header at its
tar path but an OCI whiteout entry there instead; and on the test
scenario (a directory containing one such device, inserted at `/`) the
output is exactly the directory entry `/` followed by the empty regular
file `/.wh.test`. -/
theorem overlay_whiteout_translation :
    (∀ (root : String) (fs : FS) (target : String) (opq : Bool) (opt : MapOptions)
        (rel : String) (fi : FileInfo),
        opt.translateOverlayWhiteouts = true → root ≠ "" → (rel, fi) ∈ fs →
        fi.ftype = .Char → fi.rdevMajor = 0 → fi.rdevMinor = 0 →
        (∀ x ∈ fs, joinPath target x.1 = joinPath target rel → x = (rel, fi)) →
        (whiteoutEntryFor (joinPath target rel)
            ∈ generateInsertLayer root fs target opq opt ∧
          ∀ e ∈ generateInsertLayer root fs target opq opt,
            e.name = joinPath target rel → e.etype ≠ .Char)) ∧
    generateInsertLayer "/dir"
        [("", { ftype := .Dir, size := 0 }), ("test", { ftype := .Char, size := 0 })]
        "/" false { translateOverlayWhiteouts := true } =
      [{ name := "/", etype := .Dir, size := 0, linkname := "" },
        { name := "/.wh.test", etype := .Reg, size := 0, linkname := "" }] := by
  constructor
  · intro root fs target opq opt rel fi hopt hroot hmem hft hmaj hmnr huniq
    have hmem' : (rel, fi) ∈ sortByPath fs := (sortByPath_perm fs).mem_iff.mpr hmem
    have huniq' : ∀ x ∈ sortByPath fs,
        joinPath target x.1 = joinPath target rel → x = (rel, fi) :=
      fun x hx => huniq x ((sortByPath_perm fs).mem_iff.mp hx)
    unfold generateInsertLayer
    rw [if_neg hroot]
    constructor
    · exact List.mem_append.mpr (Or.inr
        (walkEntries_whiteout_mem opt target hopt (sortByPath fs) [] rel fi hmem'
          hft hmaj hmnr))
    · intro e he hname
      rcases List.mem_append.mp he with hpre | hwalk
      · cases opq
        · simp at hpre
        · have : e = opaqueWhiteoutEntryFor target := by simpa using hpre
          subst this
          simp [opaqueWhiteoutEntryFor]
      · exact walkEntries_no_char_at opt target rel fi hopt hmaj hmnr
          (sortByPath fs) [] huniq' e hwalk hname
  · decide

/-- Witness for the general part of C2 at the test scenario. -/
theorem overlay_whiteout_translation_witness :
    whiteoutEntryFor (joinPath "/" "test") ∈ generateInsertLayer "/dir"
      [("", { ftype := .Dir, size := 0 }), ("test", { ftype := .Char, size := 0 })]
      "/" false { translateOverlayWhiteouts := true } :=
  (overlay_whiteout_translation.1 "/dir"
    [("", { ftype := .Dir, size := 0 }), ("test", { ftype := .Char, size := 0 })]
    "/" false { translateOverlayWhiteouts := true } "test" { ftype := .Char, size := 0 }
    rfl (by decide) (by decide) rfl rfl rfl (by decide)).1

end Umoci
